import Mathlib

/-!
Verification of the file-renaming utility (`python_file_rename.py`).

The program is embedded shallowly:

* a file inside the working directory is identified by its name, a `String`
  (all paths share the same parent directory, so path order and name order
  agree);
* `pathlib`'s `Path.stem` / `Path.suffix` decomposition is embedded by
  `pyStem` / `pySuffix`, following the pathlib rule: the suffix is the part
  of the name from its last dot, provided that dot is neither the first nor
  the last character, and the stem is the rest;
* the directory is a value `Option (List DirEntry)`: `none` when the folder
  does not exist (the constructor raises), `some entries` otherwise, each
  entry carrying its name and whether it is a regular file;
* `datetime.now().strftime(...)` is a clock read, so the already formatted
  timestamp string is a parameter of `add_timestamp`;
* Python's `str.replace` and the case-insensitive `re.sub` of a literal
  (escaped) pattern are embedded by `pyReplace` and `ciReplace`; case
  mappings (`lower`, `upper`, `title`, `capitalize`) are embedded on the
  ASCII range via `Char.toLower` / `Char.toUpper`;
* the filesystem seen by the executor is the list of names currently
  present in the directory, and `_execute_changes` is a fold over the plan.
-/

/-- Splits a reversed character list at its first dot (which is the last dot
of the original name): `splitRev rl = some (a, b)` means `rl = a ++ '.' :: b`
with no dot in `a`; `none` when there is no dot at all. -/
def splitRev : List Char → Option (List Char × List Char)
  | [] => none
  | c :: rest =>
    if c = '.' then some ([], rest)
    else
      match splitRev rest with
      | none => none
      | some (a, b) => some (c :: a, b)

/-- `pathlib` name splitting: `(stem, suffix)` of a file name, as character
lists. The suffix is nonempty exactly when the name has a dot that is
neither its first nor its last character. -/
def pySplit (name : List Char) : List Char × List Char :=
  match splitRev name.reverse with
  | some (a, b) =>
    if a ≠ [] ∧ b ≠ [] then (b.reverse, '.' :: a.reverse) else (name, [])
  | none => (name, [])

/-- `Path(name).stem`. -/
def pyStem (name : String) : String := String.mk (pySplit name.data).1

/-- `Path(name).suffix`. -/
def pySuffix (name : String) : String := String.mk (pySplit name.data).2

/-- The error raised by `FileRenamer.__init__` when the folder is missing
(the spec's `NotFoundError`). -/
inductive RenameError where
  | notFound : String → RenameError
deriving Repr, DecidableEq

/-- One entry of the directory: its name and whether it is a regular file. -/
structure DirEntry where
  name : String
  isFile : Bool
deriving Repr, DecidableEq

/-- Python's `str.lower`, on the ASCII range (characterwise case mapping). -/
def pyLower (s : String) : String := String.mk (s.data.map Char.toLower)

/-- Python's `str.upper`, on the ASCII range (characterwise case mapping). -/
def pyUpper (s : String) : String := String.mk (s.data.map Char.toUpper)

/-- The extension test of `get_files`: `file.suffix.lower() in extensions`.
Only the file's suffix is lowercased; the accepted set is used verbatim. -/
def extAccept (extensions : Option (List String)) (name : String) : Bool :=
  match extensions with
  | none => true
  | some exts => exts.contains (pyLower (pySuffix name))

/-- Lexicographic comparison of character lists by code point: Python's
string order, used by `sorted` on paths sharing one parent directory. -/
def lexLe : List Char → List Char → Bool
  | [], _ => true
  | _ :: _, [] => false
  | a :: as, b :: bs =>
    if a < b then true
    else if b < a then false
    else lexLe as bs

/-- The name order `sorted` uses: lexicographic by code point. -/
def nameLe (a b : String) : Prop := lexLe a.data b.data = true

instance : DecidableRel nameLe := fun a b =>
  inferInstanceAs (Decidable (lexLe a.data b.data = true))

/-- `FileRenamer.get_files`, combined with the existence check of
`FileRenamer.__init__`: a missing folder raises; otherwise the regular files
passing the extension filter are returned sorted by name (Python's stable
`sorted` is embedded as a stable insertion sort over the name order). -/
def get_files (dir : Option (List DirEntry)) (extensions : Option (List String)) :
    Except RenameError (List String) :=
  match dir with
  | none => .error (.notFound "Folder does not exist")
  | some entries =>
    .ok (List.insertionSort nameLe
      (entries.filterMap fun e =>
        if e.isFile && extAccept extensions e.name then some e.name else none))

/-- `FileRenamer.add_prefix_suffix` (plan construction only):
`new_name = f"{prefix}{stem}{suffix}{extension}"` for every listed file. -/
def add_prefix_suffix (pre suf : String) (files : List String) :
    List (String × String) :=
  files.map fun file => (file, pre ++ pyStem file ++ suf ++ pySuffix file)

/-- Decimal digits of a natural number, most significant first, with
structural fuel (`fuel > n` suffices): embeds Python's `str(n)` for `n ≥ 0`. -/
def natDigitsAux : Nat → Nat → List Char
  | 0, _ => []
  | fuel + 1, n =>
    if n < 10 then [Nat.digitChar n]
    else natDigitsAux fuel (n / 10) ++ [Nat.digitChar (n % 10)]

/-- `str(n)` as a character list (`n ≥ 0`). -/
def natDigits (n : Nat) : List Char := natDigitsAux (n + 1) n

/-- Python's `str.zfill`: left-pad with `'0'` up to the requested width. -/
def zfill (width : Nat) (s : List Char) : List Char :=
  List.replicate (width - s.length) '0' ++ s

/-- `str(n).zfill(width)` as a string. -/
def numStr (width n : Nat) : String := String.mk (zfill width (natDigits n))

/-- `FileRenamer.sequential_rename` (plan construction only): the `i`-th
listed file is mapped to `f"{base_name}_{number}{extension}"` where `number`
is `str(start_num + i).zfill(padding)`. `start_num` is taken as a natural
number, the range the spec's claims quantify over. -/
def sequential_rename (base : String) (start_num padding : Nat)
    (files : List String) : List (String × String) :=
  files.enum.map fun p =>
    (p.2, base ++ "_" ++ numStr padding (start_num + p.1) ++ pySuffix p.2)

/-- Is `pat` a prefix of `s` up to ASCII case (for `re.IGNORECASE`)? -/
def ciStartsWith : List Char → List Char → Bool
  | [], _ => true
  | _ :: _, [] => false
  | p :: ps, c :: cs => p.toLower == c.toLower && ciStartsWith ps cs

/-- Replace every occurrence of the nonempty pattern `pat` in `s`,
left-to-right and non-overlapping, comparing with `eq`; `fuel ≥ s.length`
makes the fuel irrelevant. -/
def replaceAllAux (eq : List Char → List Char → Bool) (pat rep : List Char) :
    Nat → List Char → List Char
  | 0, s => s
  | _ + 1, [] => []
  | fuel + 1, c :: cs =>
    if eq pat (c :: cs) then rep ++ replaceAllAux eq pat rep fuel ((c :: cs).drop pat.length)
    else c :: replaceAllAux eq pat rep fuel cs

/-- Replacement with the empty pattern: Python interleaves the replacement
around every character (`"ab".replace("", "-") = "-a-b-"`). -/
def interleave (rep : List Char) (s : List Char) : List Char :=
  rep ++ s.foldr (fun c acc => c :: rep ++ acc) []

/-- Python's `str.replace(pat, rep)` (all occurrences). -/
def pyReplace (s pat rep : String) : String :=
  if pat.data = [] then String.mk (interleave rep.data s.data)
  else String.mk (replaceAllAux (fun p t => p.isPrefixOf t) pat.data rep.data
    s.data.length s.data)

/-- `re.sub(re.escape(pat), rep, s, flags=re.IGNORECASE)`: literal pattern,
ASCII-case-insensitive, replacement taken literally. -/
def ciReplace (s pat rep : String) : String :=
  if pat.data = [] then String.mk (interleave rep.data s.data)
  else String.mk (replaceAllAux ciStartsWith pat.data rep.data s.data.length s.data)

/-- `FileRenamer.replace_text` (plan construction only): entries whose stem
is unchanged by the replacement are excluded from the plan. -/
def replace_text (old_text new_text : String) (case_sensitive : Bool)
    (files : List String) : List (String × String) :=
  files.filterMap fun file =>
    let stem := pyStem file
    let new_stem :=
      if case_sensitive then pyReplace stem old_text new_text
      else ciReplace stem old_text new_text
    if new_stem ≠ stem then some (file, new_stem ++ pySuffix file) else none

/-- ASCII embedding of Python's `str.title`: a letter is uppercased when the
previous character is not a letter, lowercased otherwise. -/
def pyTitle (s : String) : String :=
  String.mk ((s.data.foldl (fun (st : List Char × Bool) c =>
    if c.isAlpha then (st.1 ++ [if st.2 then c.toLower else c.toUpper], true)
    else (st.1 ++ [c], false)) ([], false)).1)

/-- ASCII embedding of Python's `str.capitalize`: first character uppercased,
the rest lowercased. -/
def pyCapitalize (s : String) : String :=
  match s.data with
  | [] => ""
  | c :: cs => String.mk (c.toUpper :: cs.map Char.toLower)

/-- The `if`/`elif` chain of `FileRenamer.change_case`; `none` is the
`else: continue` branch, taken for any unknown case type. -/
def caseTransform (case_type : String) (s : String) : Option String :=
  if case_type = "lower" then some (pyLower s)
  else if case_type = "upper" then some (pyUpper s)
  else if case_type = "title" then some (pyTitle s)
  else if case_type = "capitalize" then some (pyCapitalize s)
  else none

/-- `FileRenamer.change_case` (plan construction only): unknown case types
skip every file, and entries whose stem is unchanged are excluded. -/
def change_case (case_type : String) (files : List String) :
    List (String × String) :=
  files.filterMap fun file =>
    let stem := pyStem file
    match caseTransform case_type stem with
    | none => none
    | some new_stem =>
      if new_stem ≠ stem then some (file, new_stem ++ pySuffix file) else none

/-- The character class kept by `re.sub(r'[^a-zA-Z0-9\s\-_]', '', ...)`
(ASCII: alphanumerics, whitespace, hyphen, underscore). -/
def keepChar (c : Char) : Bool :=
  c.isAlphanum || c == ' ' || c == '\t' || c == '\n' || c == '\r' ||
    c == '\x0b' || c == '\x0c' || c == '-' || c == '_'

/-- `FileRenamer.remove_characters` (plan construction only): each listed
character is removed from the stem, then spaces are optionally replaced by
underscores, then special characters optionally stripped; unchanged entries
are excluded. -/
def remove_characters (chars_to_remove : String) (remove_spaces remove_special : Bool)
    (files : List String) : List (String × String) :=
  files.filterMap fun file =>
    let stem := pyStem file
    let s1 := chars_to_remove.data.foldl
      (fun acc c => pyReplace acc (String.mk [c]) "") stem
    let s2 := if remove_spaces then pyReplace s1 " " "_" else s1
    let s3 := if remove_special then String.mk (s2.data.filter keepChar) else s2
    if s3 ≠ stem then some (file, s3 ++ pySuffix file) else none

/-- `FileRenamer.add_timestamp` (plan construction only): the formatted
current-time string is a parameter, prepended when `position == "prefix"`
and appended otherwise. -/
def add_timestamp (timestamp position : String) (files : List String) :
    List (String × String) :=
  files.map fun file =>
    (file,
      if position = "prefix" then
        timestamp ++ "_" ++ pyStem file ++ pySuffix file
      else
        pyStem file ++ "_" ++ timestamp ++ pySuffix file)

/-- One application of a planner rule, used to quantify over the six rule
functions at once. -/
inductive RuleApp where
  | fix : String → String → RuleApp
  | seq : String → Nat → Nat → RuleApp
  | rep : String → String → Bool → RuleApp
  | cas : String → RuleApp
  | rem : String → Bool → Bool → RuleApp
  | ts : String → String → RuleApp
deriving Repr, DecidableEq

/-- Runs the rule a `RuleApp` denotes on a file list. -/
def runRule : RuleApp → List String → List (String × String)
  | .fix pre suf, files => add_prefix_suffix pre suf files
  | .seq base start padding, files => sequential_rename base start padding files
  | .rep o n cs, files => replace_text o n cs files
  | .cas ct, files => change_case ct files
  | .rem cs sp spec, files => remove_characters cs sp spec files
  | .ts t pos, files => add_timestamp t pos files

/-- The rules whose plans filter out unchanged names, plus the timestamp
rule (whose new stem is strictly longer than the old one). -/
def filtersUnchanged : RuleApp → Bool
  | .rep _ _ _ => true
  | .cas _ => true
  | .rem _ _ _ => true
  | .ts _ _ => true
  | _ => false

/-- The executor's running state: the names present in the directory, the
successfully renamed pairs and the failed triples `(old, new, reason)`. -/
structure ExecState where
  fs : List String
  successful : List (String × String)
  failed : List (String × String × String)
deriving Repr, DecidableEq

/-- One iteration of the loop of `FileRenamer._execute_changes`: an existing
destination records a conflict failure and skips; a missing source makes
`Path.rename` raise, which is caught and recorded; otherwise the file is
renamed and the pair recorded as successful. -/
def execStep (st : ExecState) (c : String × String) : ExecState :=
  if c.2 ∈ st.fs then
    { st with failed := st.failed ++ [(c.1, c.2, "Target file already exists")] }
  else if c.1 ∈ st.fs then
    { st with
      fs := c.2 :: st.fs.erase c.1,
      successful := st.successful ++ [(c.1, c.2)] }
  else
    { st with failed := st.failed ++ [(c.1, c.2, "FileNotFoundError")] }

/-- `FileRenamer._execute_changes` as a fold over the plan, starting from the
given directory contents. -/
def execute_changes (fs0 : List String) (changes : List (String × String)) :
    ExecState :=
  changes.foldl execStep ⟨fs0, [], []⟩

/-- The value `FileRenamer._execute_changes` returns to its caller: the list
of successful pairs only (`return successful`). -/
def execute_changes_ret (fs0 : List String) (changes : List (String × String)) :
    List (String × String) :=
  (execute_changes fs0 changes).successful

/-! ### Properties of the `pathlib` name split -/

/-- Correctness of `splitRev`: a `some` result decomposes the input at a dot. -/
theorem splitRev_eq_append : ∀ (l a b : List Char),
    splitRev l = some (a, b) → l = a ++ '.' :: b := by
  intro l
  induction l with
  | nil => intro a b h; simp [splitRev] at h
  | cons c rest ih =>
    intro a b h
    by_cases hc : c = '.'
    · subst hc
      simp [splitRev] at h
      obtain ⟨rfl, rfl⟩ := h
      simp
    · simp only [splitRev, if_neg hc] at h
      cases hr : splitRev rest with
      | none => rw [hr] at h; simp at h
      | some p =>
        obtain ⟨a2, b2⟩ := p
        rw [hr] at h
        simp only [Option.some.injEq, Prod.mk.injEq] at h
        obtain ⟨ha, hb⟩ := h
        subst ha
        subst hb
        rw [ih a2 b2 hr]
        simp

/-- The stem and suffix of a name concatenate back to the name. -/
theorem pySplit_append (n : List Char) : (pySplit n).1 ++ (pySplit n).2 = n := by
  cases hr : splitRev n.reverse with
  | none => simp [pySplit, hr]
  | some p =>
    obtain ⟨a, b⟩ := p
    by_cases hab : a ≠ [] ∧ b ≠ []
    · have h := splitRev_eq_append n.reverse a b hr
      have h2 : n = (a ++ '.' :: b).reverse := by
        rw [← h, List.reverse_reverse]
      simp only [pySplit, hr, if_pos hab]
      rw [h2]
      simp
    · simp [pySplit, hr, if_neg hab]

/-- `Path(name).stem + Path(name).suffix == name`. -/
theorem pyStem_append_pySuffix (s : String) : pyStem s ++ pySuffix s = s := by
  apply String.ext
  rw [String.data_append]
  exact pySplit_append s.data

/-- Shape of a suffix: empty, or a dot followed by the rest. -/
def dotted (l : List Char) : Prop := l = [] ∨ ∃ t, l = '.' :: t

/-- A suffix computed by `pySuffix` is empty or starts with a dot. -/
theorem pySuffix_dotted (s : String) : dotted (pySuffix s).data := by
  unfold dotted
  cases hr : splitRev s.data.reverse with
  | none => left; simp [pySuffix, pySplit, hr]
  | some p =>
    obtain ⟨a, b⟩ := p
    by_cases hab : a ≠ [] ∧ b ≠ []
    · right
      refine ⟨a.reverse, ?_⟩
      simp [pySuffix, pySplit, hr, if_pos hab]
    · left
      simp [pySuffix, pySplit, hr, if_neg hab]

/-! ### Decimal rendering: zero-padded numbers are injective -/

/-- Numeric value of a decimal digit character. -/
def digitVal (c : Char) : Nat := c.toNat - 48

/-- Value of a most-significant-first digit list. -/
def parseDigits (l : List Char) : Nat :=
  l.foldl (fun a c => a * 10 + digitVal c) 0

theorem parseDigits_append_singleton (l : List Char) (c : Char) :
    parseDigits (l ++ [c]) = 10 * parseDigits l + digitVal c := by
  simp [parseDigits, List.foldl_append]
  omega

theorem digitVal_digitChar {n : Nat} (h : n < 10) :
    digitVal (Nat.digitChar n) = n := by
  interval_cases n <;> rfl

theorem digitChar_isDigit {n : Nat} (h : n < 10) :
    (Nat.digitChar n).isDigit = true := by
  interval_cases n <;> rfl

/-- `str(n)` parses back to `n` (with enough fuel). -/
theorem parseDigits_natDigitsAux :
    ∀ fuel n, n < fuel → parseDigits (natDigitsAux fuel n) = n := by
  intro fuel
  induction fuel with
  | zero => intro n h; omega
  | succ f ih =>
    intro n h
    unfold natDigitsAux
    by_cases h10 : n < 10
    · simp only [if_pos h10, parseDigits, List.foldl_cons, List.foldl_nil]
      rw [show (0 : Nat) * 10 + digitVal (Nat.digitChar n) = digitVal (Nat.digitChar n) by omega]
      exact digitVal_digitChar h10
    · rw [if_neg h10, parseDigits_append_singleton]
      have hlt : n / 10 < f := by
        have : n / 10 < n := Nat.div_lt_self (by omega) (by omega)
        omega
      rw [ih _ hlt, digitVal_digitChar (Nat.mod_lt _ (by omega))]
      omega

theorem parseDigits_natDigits (n : Nat) : parseDigits (natDigits n) = n :=
  parseDigits_natDigitsAux (n + 1) n (Nat.lt_succ_self n)

/-- Every character `str(n)` produces is a decimal digit. -/
theorem natDigitsAux_isDigit :
    ∀ fuel n c, c ∈ natDigitsAux fuel n → c.isDigit = true := by
  intro fuel
  induction fuel with
  | zero => intro n c h; simp [natDigitsAux] at h
  | succ f ih =>
    intro n c h
    unfold natDigitsAux at h
    by_cases h10 : n < 10
    · rw [if_pos h10] at h
      simp at h
      subst h
      exact digitChar_isDigit h10
    · rw [if_neg h10] at h
      rcases List.mem_append.mp h with h1 | h2
      · exact ih _ _ h1
      · simp at h2
        subst h2
        exact digitChar_isDigit (Nat.mod_lt _ (by omega))

theorem natDigits_isDigit {n : Nat} {c : Char} (h : c ∈ natDigits n) :
    c.isDigit = true :=
  natDigitsAux_isDigit (n + 1) n c h

theorem zfill_natDigits_isDigit {w n : Nat} {c : Char}
    (h : c ∈ zfill w (natDigits n)) : c.isDigit = true := by
  rcases List.mem_append.mp h with h1 | h2
  · rw [List.eq_of_mem_replicate h1]
    rfl
  · exact natDigits_isDigit h2

theorem parseDigits_cons_zero (xs : List Char) :
    parseDigits ('0' :: xs) = parseDigits xs := by
  simp [parseDigits, List.foldl_cons, digitVal]

/-- Left-padding with zeros does not change the parsed value. -/
theorem parseDigits_replicate_zero (k : Nat) (l : List Char) :
    parseDigits (List.replicate k '0' ++ l) = parseDigits l := by
  induction k with
  | zero => simp
  | succ m ih =>
    rw [List.replicate_succ, List.cons_append, parseDigits_cons_zero]
    exact ih

/-- `str(n).zfill(w)` parses back to `n`: padding keeps distinct numbers
distinct. -/
theorem parseDigits_zfill (w n : Nat) :
    parseDigits (zfill w (natDigits n)) = n := by
  unfold zfill
  rw [parseDigits_replicate_zero, parseDigits_natDigits]

/-- A digit list followed by an empty-or-dot-leading tail determines the
digit list: the destination extension cannot bleed into the number. -/
theorem digits_append_cancel : ∀ (a b x y : List Char),
    (∀ c ∈ a, c.isDigit = true) → (∀ c ∈ b, c.isDigit = true) →
    dotted x → dotted y → a ++ x = b ++ y → a = b := by
  intro a
  induction a with
  | nil =>
    intro b x y _ hb hx hy h
    cases b with
    | nil => rfl
    | cons d bs =>
      exfalso
      rcases hx with rfl | ⟨t, rfl⟩
      · simp at h
      · simp only [List.nil_append, List.cons_append, List.cons.injEq] at h
        have hd := hb d (by simp)
        rw [← h.1] at hd
        simp [Char.isDigit] at hd
  | cons c as ih =>
    intro b x y ha hb hx hy h
    cases b with
    | nil =>
      exfalso
      rcases hy with rfl | ⟨t, rfl⟩
      · simp at h
      · simp only [List.cons_append, List.nil_append, List.cons.injEq] at h
        have hc := ha c (by simp)
        rw [h.1] at hc
        simp [Char.isDigit] at hc
    | cons d bs =>
      simp only [List.cons_append, List.cons.injEq] at h
      rw [h.1]
      rw [ih bs x y (fun e he => ha e (by simp [he])) (fun e he => hb e (by simp [he])) hx hy h.2]

/-- Distinct numbers give distinct sequential destination names, whatever
the (possibly differently sized) zero padding renders them as and whatever
the two extensions are. -/
theorem seq_names_ne (base : String) (w : Nat) {m n : Nat} (hmn : m ≠ n)
    (e1 e2 : String) (h1 : dotted e1.data) (h2 : dotted e2.data) :
    base ++ "_" ++ numStr w m ++ e1 ≠ base ++ "_" ++ numStr w n ++ e2 := by
  intro h
  have hd := congrArg String.data h
  simp only [String.data_append] at hd
  rw [List.append_assoc (base.data ++ "_".data), List.append_assoc (base.data ++ "_".data)] at hd
  have hz : (numStr w m).data ++ e1.data = (numStr w n).data ++ e2.data :=
    List.append_cancel_left hd
  have hzz : zfill w (natDigits m) = zfill w (natDigits n) :=
    digits_append_cancel _ _ e1.data e2.data
      (fun c hc => zfill_natDigits_isDigit hc)
      (fun c hc => zfill_natDigits_isDigit hc) h1 h2 hz
  apply hmn
  rw [← parseDigits_zfill w m, ← parseDigits_zfill w n, hzz]

/-! ### Claim theorems -/

/-- C1 (amended): with an empty prefix and an empty suffix,
`add_prefix_suffix` does not produce an empty plan; it produces the identity
plan, one pair per listed file with the destination equal to the source
(the rule never filters unchanged names). -/
theorem add_prefix_suffix_noop_identity (files : List String) :
    add_prefix_suffix "" "" files = files.map fun f => (f, f) := by
  unfold add_prefix_suffix
  apply List.map_congr_left
  intro f _
  rw [String.empty_append, String.append_empty, pyStem_append_pySuffix]

/-- C1 (counterexample): on a directory listing a single file, the
empty-prefix empty-suffix plan is not empty, contradicting the claim that a
no-op rule yields an empty plan. -/
theorem add_prefix_suffix_noop_nonempty :
    add_prefix_suffix "" "" ["a.txt"] ≠ [] := by decide

/-- Processing one plan entry grows exactly one of the two result lists. -/
theorem execStep_count (st : ExecState) (c : String × String) :
    (execStep st c).successful.length + (execStep st c).failed.length =
      st.successful.length + st.failed.length + 1 := by
  unfold execStep
  split_ifs <;> simp <;> omega

/-- The executor's fold processes every entry of the plan. -/
theorem foldl_execStep_count (changes : List (String × String)) :
    ∀ st : ExecState,
      (changes.foldl execStep st).successful.length +
          (changes.foldl execStep st).failed.length =
        st.successful.length + st.failed.length + changes.length := by
  induction changes with
  | nil => intro st; simp
  | cons c rest ih =>
    intro st
    rw [List.foldl_cons, ih (execStep st c)]
    have := execStep_count st c
    simp only [List.length_cons]
    omega

/-- C2 (amended): the executor never aborts - every plan entry ends up in
the success list or in the failure list, so successes and failures together
account for the whole plan - but its return value is only the list of
successful pairs; the failures (with their reason strings) are accumulated
and reported, not returned. -/
theorem execute_changes_processes_all (fs0 : List String)
    (changes : List (String × String)) :
    (execute_changes fs0 changes).successful.length +
        (execute_changes fs0 changes).failed.length = changes.length ∧
    execute_changes_ret fs0 changes = (execute_changes fs0 changes).successful := by
  constructor
  · have h := foldl_execStep_count changes ⟨fs0, [], []⟩
    simpa [execute_changes] using h
  · rfl

/-- C2 (counterexample): a one-entry plan whose destination already exists
produces a nonempty failure set, yet the executor's return value is the
empty list - the failed pairs are not part of the return value. -/
theorem execute_changes_return_omits_failures :
    (execute_changes ["a.txt", "b.txt"] [("a.txt", "b.txt")]).failed ≠ [] ∧
    execute_changes_ret ["a.txt", "b.txt"] [("a.txt", "b.txt")] = [] := by
  decide

/-- A changed stem gives a changed name: the suffix is appended unchanged,
so equality of the names would force equality of the stems. -/
theorem stem_change_name_change {file new_stem : String}
    (h : new_stem ≠ pyStem file) : new_stem ++ pySuffix file ≠ file := by
  intro he
  apply h
  have h2 : new_stem ++ pySuffix file = pyStem file ++ pySuffix file := by
    rw [he, pyStem_append_pySuffix]
  have h3 := congrArg String.data h2
  simp only [String.data_append] at h3
  exact String.ext (List.append_cancel_right h3)

/-- The stem length and suffix length of a name sum to the name's length. -/
theorem name_length (file : String) :
    (pyStem file).length + (pySuffix file).length = file.length := by
  have h := congrArg String.length (pyStem_append_pySuffix file)
  rwa [String.length_append] at h

/-- Inverts a guarded plan entry: it is in the plan only when the guard
holds. -/
theorem ite_some_eq_some {α : Type} {c : Prop} [Decidable c] {a b : α}
    (h : (if c then some a else none) = some b) : c ∧ a = b := by
  by_cases hc : c
  · rw [if_pos hc] at h
    exact ⟨hc, Option.some.inj h⟩
  · rw [if_neg hc] at h
    simp at h

/-- C3 (amended): plans built by `replace_text`, `change_case`,
`remove_characters` (which all exclude unchanged names) and `add_timestamp`
(whose new stem is strictly longer) never map a path to itself; the claim's
universal statement over all six rules fails for `add_prefix_suffix` and
`sequential_rename`. -/
theorem filtered_rules_no_self_map (r : RuleApp) (files : List String)
    (pr : String × String) (hr : filtersUnchanged r = true)
    (hm : pr ∈ runRule r files) : pr.1 ≠ pr.2 := by
  cases r with
  | fix pre suf => simp [filtersUnchanged] at hr
  | seq b s p => simp [filtersUnchanged] at hr
  | rep o n cs =>
    simp only [runRule, replace_text, List.mem_filterMap] at hm
    obtain ⟨file, -, hfe⟩ := hm
    obtain ⟨hne, heq⟩ := ite_some_eq_some hfe
    obtain rfl := heq
    exact Ne.symm (stem_change_name_change hne)
  | cas ct =>
    simp only [runRule, change_case, List.mem_filterMap] at hm
    obtain ⟨file, -, hfe⟩ := hm
    cases hct : caseTransform ct (pyStem file) with
    | none => rw [hct] at hfe; simp at hfe
    | some ns =>
      rw [hct] at hfe
      obtain ⟨hne, heq⟩ := ite_some_eq_some hfe
      obtain rfl := heq
      exact Ne.symm (stem_change_name_change hne)
  | rem cs sp spc =>
    simp only [runRule, remove_characters, List.mem_filterMap] at hm
    obtain ⟨file, -, hfe⟩ := hm
    obtain ⟨hne, heq⟩ := ite_some_eq_some hfe
    obtain rfl := heq
    exact Ne.symm (stem_change_name_change hne)
  | ts t pos =>
    simp only [runRule, add_timestamp, List.mem_map] at hm
    obtain ⟨file, -, heq⟩ := hm
    obtain rfl := heq
    intro h
    have hss := name_length file
    have hu : ("_" : String).length = 1 := rfl
    simp only at h
    split at h <;>
    · have hlen := congrArg String.length h
      simp only [String.length_append] at hlen
      omega

/-- C3 (witness): the lowercase rule maps `A.txt` to `a.txt`, a pair whose
source differs from its destination. -/
theorem filtered_rules_no_self_map_witness :
    ("A.txt", "a.txt").1 ≠ ("A.txt", "a.txt").2 :=
  filtered_rules_no_self_map (.cas "lower") ["A.txt"] ("A.txt", "a.txt")
    (by decide) (by decide)

/-- C3 (counterexample): `sequential_rename` with the default parameters on
a directory holding `file_001.txt` plans to rename it to itself, so a plan
entry can map a path to itself. -/
theorem sequential_rename_self_map_example :
    ("file_001.txt", "file_001.txt") ∈
      sequential_rename "file" 1 3 ["file_001.txt"] := by decide

/-- The name order is total. -/
theorem lexLe_total : ∀ as bs : List Char, lexLe as bs = true ∨ lexLe bs as = true := by
  intro as
  induction as with
  | nil => intro bs; left; rfl
  | cons a as ih =>
    intro bs
    cases bs with
    | nil => right; rfl
    | cons b bs =>
      by_cases hab : a < b
      · left; simp [lexLe, hab]
      · by_cases hba : b < a
        · right; simp [lexLe, hba]
        · rcases ih bs with h | h
          · left; simp [lexLe, hab, hba, h]
          · right; simp [lexLe, hab, hba, h]

/-- The name order is transitive. -/
theorem lexLe_trans : ∀ as bs cs : List Char,
    lexLe as bs = true → lexLe bs cs = true → lexLe as cs = true := by
  intro as
  induction as with
  | nil => intro bs cs _ _; rfl
  | cons a as ih =>
    intro bs cs h1 h2
    cases bs with
    | nil => simp [lexLe] at h1
    | cons b bs =>
      cases cs with
      | nil => simp [lexLe] at h2
      | cons c cs =>
        simp only [lexLe] at h1 h2 ⊢
        by_cases hab : a < b
        · by_cases hbc : b < c
          · simp [lt_trans hab hbc]
          · by_cases hcb : c < b
            · simp [lexLe, hbc, hcb] at h2
            · have hbc2 : b = c := le_antisymm (not_lt.mp hcb) (not_lt.mp hbc)
              subst hbc2
              simp [hab]
        · by_cases hba : b < a
          · simp [hab, hba] at h1
          · have hba2 : a = b := le_antisymm (not_lt.mp hba) (not_lt.mp hab)
            subst hba2
            rw [if_neg hab, if_neg hab] at h1
            by_cases hac : a < c
            · simp [hac]
            · rw [if_neg hac] at h2 ⊢
              by_cases hca : c < a
              · simp [hac, hca] at h2
              · rw [if_neg hca] at h2 ⊢
                exact ih bs cs h1 h2

/-- C4 (confirmed): listing fails with the not-found error exactly when the
directory does not exist; on an existing directory it succeeds, returns only
names of regular files of the directory, and the result is sorted by name. -/
theorem get_files_not_found_iff (dir : Option (List DirEntry))
    (exts : Option (List String)) :
    (dir = none →
      get_files dir exts = .error (.notFound "Folder does not exist")) ∧
    (∀ entries, dir = some entries → ∃ l, get_files dir exts = .ok l ∧
      List.Sorted nameLe l ∧
      ∀ name ∈ l, ∃ e ∈ entries, e.name = name ∧ e.isFile = true) := by
  constructor
  · intro h
    subst h
    rfl
  · intro entries h
    subst h
    refine ⟨_, rfl, ?_, ?_⟩
    · haveI : IsTotal String nameLe :=
        ⟨fun a b => lexLe_total a.data b.data⟩
      haveI : IsTrans String nameLe :=
        ⟨fun a b c => lexLe_trans a.data b.data c.data⟩
      exact List.sorted_insertionSort _ _
    · intro name hn
      have hn2 : name ∈ entries.filterMap fun e =>
          if e.isFile && extAccept exts e.name then some e.name else none :=
        (List.perm_insertionSort _ _).mem_iff.mp hn
      obtain ⟨e, he, hfe⟩ := List.mem_filterMap.mp hn2
      by_cases hc : (e.isFile && extAccept exts e.name) = true
      · rw [if_pos hc] at hfe
        simp only [Bool.and_eq_true] at hc
        exact ⟨e, he, Option.some.inj hfe, hc.1⟩
      · rw [if_neg hc] at hfe
        simp at hfe

/-- C4 (witness): a missing directory produces the not-found error. -/
theorem get_files_not_found_iff_witness :
    get_files none none = .error (.notFound "Folder does not exist") :=
  (get_files_not_found_iff none none).1 rfl

/-- C5 (confirmed): when a plan entry's destination name already exists in
the directory, the executor records a conflict failure with the reason
`"Target file already exists"`, leaves the filesystem (hence the source
file) untouched, records no success, and goes on to fold the remaining
entries from that unchanged filesystem. -/
theorem execute_conflict_skips_and_continues (st : ExecState)
    (c : String × String) (rest : List (String × String))
    (h : c.2 ∈ st.fs) :
    execStep st c =
      { st with failed := st.failed ++ [(c.1, c.2, "Target file already exists")] } ∧
    (execStep st c).fs = st.fs ∧
    (execStep st c).successful = st.successful ∧
    (c :: rest).foldl execStep st = rest.foldl execStep (execStep st c) := by
  refine ⟨?_, ?_, ?_, rfl⟩ <;> simp [execStep, h]

/-- C5 (witness): renaming `a.txt` onto the existing `b.txt` is recorded as
a conflict failure and the directory is unchanged. -/
theorem execute_conflict_skips_and_continues_witness :
    execStep ⟨["a.txt", "b.txt"], [], []⟩ ("a.txt", "b.txt") =
      ⟨["a.txt", "b.txt"], [], [("a.txt", "b.txt", "Target file already exists")]⟩ ∧
    (execStep ⟨["a.txt", "b.txt"], [], []⟩ ("a.txt", "b.txt")).fs =
      ["a.txt", "b.txt"] ∧
    (execStep ⟨["a.txt", "b.txt"], [], []⟩ ("a.txt", "b.txt")).successful = [] ∧
    ([("a.txt", "b.txt")] : List (String × String)).foldl execStep
        ⟨["a.txt", "b.txt"], [], []⟩ =
      List.foldl execStep (execStep ⟨["a.txt", "b.txt"], [], []⟩ ("a.txt", "b.txt")) [] :=
  execute_conflict_skips_and_continues ⟨["a.txt", "b.txt"], [], []⟩
    ("a.txt", "b.txt") [] (by decide)

/-- C6 (confirmed): for every file list, starting number and padding width,
the sequential rule assigns the consecutive indices `start, start + 1, ...`
(the `i`-th plan entry carries the zero-padded rendering of `start + i`),
and all destination names of the plan are pairwise distinct - also when an
index needs more digits than the padding width. -/
theorem sequential_rename_no_collisions (base : String)
    (start_num padding : Nat) (files : List String) :
    ((sequential_rename base start_num padding files).map Prod.snd).Nodup ∧
    ∀ i file, files[i]? = some file →
      (sequential_rename base start_num padding files)[i]? =
        some (file, base ++ "_" ++ numStr padding (start_num + i) ++ pySuffix file) := by
  constructor
  · refine List.pairwise_iff_getElem.mpr ?_
    intro i j hi hj hij
    simp only [sequential_rename, List.length_map, List.enum_length] at hi hj
    simp only [sequential_rename, List.getElem_map, List.getElem_enum]
    exact seq_names_ne base padding (by omega) _ _
      (pySuffix_dotted _) (pySuffix_dotted _)
  · intro i file hf
    simp [sequential_rename, List.getElem?_map, List.getElem?_enum, hf]

/-- C6 (witness): with starting number 9 and padding 1 the two rendered
indices `9` and `10` have different widths yet the two destination names
stay distinct; the first entry carries index `9 + 0`. -/
theorem sequential_rename_no_collisions_witness :
    ((sequential_rename "file" 9 1 ["a.txt", "b.txt"]).map Prod.snd).Nodup ∧
    (sequential_rename "file" 9 1 ["a.txt", "b.txt"])[0]? =
      some ("a.txt", "file" ++ "_" ++ numStr 1 (9 + 0) ++ pySuffix "a.txt") :=
  ⟨(sequential_rename_no_collisions "file" 9 1 ["a.txt", "b.txt"]).1,
    (sequential_rename_no_collisions "file" 9 1 ["a.txt", "b.txt"]).2 0 "a.txt" rfl⟩

/-- C7 (confirmed): a directory holding exactly `a.txt` and `b.txt`, listed
and renamed sequentially with base `file`, start `1` and padding `2`, yields
exactly the plan `[(a.txt, file_01.txt), (b.txt, file_02.txt)]`. -/
theorem sequential_example_two_files :
    get_files (some [⟨"a.txt", true⟩, ⟨"b.txt", true⟩]) none =
      .ok ["a.txt", "b.txt"] ∧
    sequential_rename "file" 1 2 ["a.txt", "b.txt"] =
      [("a.txt", "file_01.txt"), ("b.txt", "file_02.txt")] :=
  ⟨rfl, by decide⟩

/-- C8 (amended): every rule builds the destination name by appending the
source's extension string, unchanged, to the transformed stem. (The claim's
stronger reading - that the destination name parses back to the same
extension - fails when the transformed stem is empty: see the
counterexample.) -/
theorem rules_append_original_extension (r : RuleApp) (files : List String)
    (pr : String × String) (hm : pr ∈ runRule r files) :
    ∃ stem2, pr.2 = stem2 ++ pySuffix pr.1 := by
  cases r with
  | fix pre suf =>
    simp only [runRule, add_prefix_suffix, List.mem_map] at hm
    obtain ⟨file, -, heq⟩ := hm
    obtain rfl := heq
    exact ⟨pre ++ pyStem file ++ suf, rfl⟩
  | seq b s p =>
    simp only [runRule, sequential_rename, List.mem_map] at hm
    obtain ⟨q, -, heq⟩ := hm
    obtain rfl := heq
    exact ⟨b ++ "_" ++ numStr p (s + q.1), rfl⟩
  | rep o n cs =>
    simp only [runRule, replace_text, List.mem_filterMap] at hm
    obtain ⟨file, -, hfe⟩ := hm
    obtain ⟨-, heq⟩ := ite_some_eq_some hfe
    obtain rfl := heq
    exact ⟨_, rfl⟩
  | cas ct =>
    simp only [runRule, change_case, List.mem_filterMap] at hm
    obtain ⟨file, -, hfe⟩ := hm
    cases hct : caseTransform ct (pyStem file) with
    | none => rw [hct] at hfe; simp at hfe
    | some ns =>
      rw [hct] at hfe
      obtain ⟨-, heq⟩ := ite_some_eq_some hfe
      obtain rfl := heq
      exact ⟨ns, rfl⟩
  | rem cs sp spc =>
    simp only [runRule, remove_characters, List.mem_filterMap] at hm
    obtain ⟨file, -, hfe⟩ := hm
    obtain ⟨-, heq⟩ := ite_some_eq_some hfe
    obtain rfl := heq
    exact ⟨_, rfl⟩
  | ts t pos =>
    simp only [runRule, add_timestamp, List.mem_map] at hm
    obtain ⟨file, -, heq⟩ := hm
    obtain rfl := heq
    by_cases hpos : pos = "prefix"
    · exact ⟨t ++ "_" ++ pyStem file, by simp [hpos]⟩
    · exact ⟨pyStem file ++ "_" ++ t, by simp [hpos]⟩

/-- C8 (witness): the prefix/suffix rule sends `a.txt` to `pas.txt`, whose
name is a stem followed by the source's extension string `.txt`. -/
theorem rules_append_original_extension_witness :
    ∃ stem2, ("pas.txt" : String) = stem2 ++ pySuffix "a.txt" :=
  rules_append_original_extension (.fix "p" "s") ["a.txt"] ("a.txt", "pas.txt")
    (by decide)

/-- C8 (counterexample): removing the character `a` from `a.txt` plans the
destination `.txt`, whose parsed extension is `""` (pathlib treats `.txt` as
a dotfile without extension) while the source's parsed extension is `.txt`:
a rule can change the destination name's extension. -/
theorem remove_characters_changes_parsed_extension :
    ("a.txt", ".txt") ∈ remove_characters "a" false false ["a.txt"] ∧
    pySuffix ".txt" ≠ pySuffix "a.txt" := by decide

/-- C9 (amended): the extension filter lowercases only the file's suffix
and tests literal membership in the accepted set: a file is listed exactly
when it is a regular file of the directory whose lowercased suffix is
literally in the set. (A set entry that is not lowercase can therefore never
match, even a file whose suffix equals it: see the counterexample.) -/
theorem extension_filter_lowercases_file_only (entries : List DirEntry)
    (exts : List String) (l : List String) (name : String)
    (h : get_files (some entries) (some exts) = .ok l) :
    name ∈ l ↔ ∃ e ∈ entries, e.isFile = true ∧ e.name = name ∧
      exts.contains (pyLower (pySuffix name)) = true := by
  have hl : List.insertionSort nameLe (entries.filterMap fun e =>
      if e.isFile && extAccept (some exts) e.name then some e.name else none) = l := by
    simpa [get_files] using h
  rw [← hl, (List.perm_insertionSort _ _).mem_iff, List.mem_filterMap]
  constructor
  · rintro ⟨e, he, hfe⟩
    by_cases hc : (e.isFile && extAccept (some exts) e.name) = true
    · rw [if_pos hc] at hfe
      obtain rfl := Option.some.inj hfe
      simp only [Bool.and_eq_true] at hc
      refine ⟨e, he, hc.1, rfl, ?_⟩
      simpa [extAccept] using hc.2
    · rw [if_neg hc] at hfe
      simp at hfe
  · rintro ⟨e, he, hf, hn, hcont⟩
    refine ⟨e, he, ?_⟩
    have hc : (e.isFile && extAccept (some exts) e.name) = true := by
      rw [Bool.and_eq_true]
      refine ⟨hf, ?_⟩
      simp only [extAccept, hn]
      exact hcont
    rw [if_pos hc, hn]

/-- C9 (witness): with accepted set `{".txt"}`, the file `a.TXT` is listed
because its lowercased suffix `.txt` is in the set. -/
theorem extension_filter_lowercases_file_only_witness :
    ("a.TXT" : String) ∈ ["a.TXT"] ↔
      ∃ e ∈ [DirEntry.mk "a.TXT" true], e.isFile = true ∧
        e.name = "a.TXT" ∧ [".txt"].contains (pyLower (pySuffix "a.TXT")) = true :=
  extension_filter_lowercases_file_only [⟨"a.TXT", true⟩] [".txt"] ["a.TXT"]
    "a.TXT" rfl

/-- C9 (counterexample): the file `a.TXT` and the accepted set `{".TXT"}`
match ignoring case - the suffix `.TXT` is itself a member of the set - yet
the file is excluded, because the set entry is never lowercased: the filter
is not case-insensitive as claimed. -/
theorem uppercase_extension_set_never_matches :
    get_files (some [⟨"a.TXT", true⟩]) (some [".TXT"]) = .ok [] ∧
    (".TXT" : String) ∈ [".TXT"] ∧ pySuffix "a.TXT" = ".TXT" :=
  ⟨rfl, by decide, by decide⟩

/-- C10 (confirmed): a case type outside lower/upper/title/capitalize makes
`change_case` skip every file: the plan is empty, with no error raised. -/
theorem change_case_unknown_type_empty (case_type : String)
    (files : List String)
    (h1 : case_type ≠ "lower") (h2 : case_type ≠ "upper")
    (h3 : case_type ≠ "title") (h4 : case_type ≠ "capitalize") :
    change_case case_type files = [] := by
  unfold change_case
  refine List.filterMap_eq_nil_iff.mpr ?_
  intro file hf
  simp [caseTransform, h1, h2, h3, h4]

/-- C10 (witness): the unknown case type `snake` yields an empty plan. -/
theorem change_case_unknown_type_empty_witness :
    change_case "snake" ["A.txt"] = [] :=
  change_case_unknown_type_empty "snake" ["A.txt"]
    (by decide) (by decide) (by decide) (by decide)
